import Mathlib

/-!
Verification of the gemflare registry index subsystem (`src/utils.ts`).

The TypeScript code is shallowly embedded: the Cloudflare KV namespace is a
list of key/record pairs (`kv.list` returns keys in lexicographic order and
`kv.get` returns the JSON record stored under a key), `GemMetadata` mirrors
the runtime shape of the records the code manipulates (fields that may be
`undefined` at runtime are `Option`s), JavaScript's falsy-default idiom
`x || d` is `jsOrStr`, `Object.entries` on an array is `jsArrayEntries`
(index/value pairs), template interpolation of a plain object is the string
"[object Object]", `String.prototype.split` is `jsSplit`, and
`Array.prototype.sort` with a comparator is a stable sort by the comparator.
`localeCompare(v, undefined, numeric:true, sensitivity:'base')` is modelled
by `vcmp`: maximal decimal-digit runs compare by numeric value, other
characters by case-folded code point, with characters below '0' ordered
before digit runs and the rest after.  External binary codecs (Ruby Marshal
`dump`, gzip) are uninterpreted function parameters.
-/

/-- Lexicographic comparison of a pair of naturals, used as the common key
space for all comparator models. -/
def compareKey (p q : Nat × Nat) : Ordering :=
  (compare p.1 q.1).then (compare p.2 q.2)

/-- Comparator induced on `α` by a key function into `Nat × Nat`. -/
def keyedCmp {α : Type} (k : α → Nat × Nat) (a b : α) : Ordering :=
  compareKey (k a) (k b)

/-- Lexicographic extension of a comparator to lists (shorter prefix first). -/
def cmpLex {α : Type} (cmp : α → α → Ordering) : List α → List α → Ordering
  | [], [] => .eq
  | [], _ :: _ => .lt
  | _ :: _, [] => .gt
  | a :: as, b :: bs =>
    match cmp a b with
    | .eq => cmpLex cmp as bs
    | o => o

/-- Key of a character for JavaScript's default string comparison:
plain code point (JS compares UTF-16 code units; on the strings handled
here this agrees with code-point order). -/
def charKey (c : Char) : Nat × Nat := (0, c.toNat)

/-- JavaScript default string comparison (code-unit lexicographic), as used
by `Array.prototype.sort()` without a comparator. -/
def strCmp (a b : String) : Ordering :=
  cmpLex (keyedCmp charKey) a.data b.data

/-- Ascending order relation for JS default string sort. -/
def strLe (a b : String) : Prop := strCmp a b ≠ Ordering.gt

instance : DecidableRel strLe := fun _ _ => instDecidableNot

/-- Token of the ICU numeric collation model: a maximal digit run with its
numeric value and width, or a single non-digit character. -/
inductive VTok where
  | num : Nat → Nat → VTok
  | sym : Char → VTok
deriving DecidableEq

/-- Numeric value of a decimal digit character. -/
def digitVal (c : Char) : Nat := c.toNat - 48

/-- Powers of ten. -/
def pow10 : Nat → Nat
  | 0 => 1
  | n + 1 => 10 * pow10 n

/-- Tokenize a character list into maximal digit runs and single characters,
as ICU numeric collation segments the input. -/
def lexVer : List Char → List VTok
  | [] => []
  | c :: cs =>
    if c.isDigit then
      match lexVer cs with
      | VTok.num v w :: rest => VTok.num (digitVal c * pow10 w + v) (w + 1) :: rest
      | toks => VTok.num (digitVal c) 1 :: toks
    else VTok.sym c :: lexVer cs

/-- Collation key of a token: digit runs compare by numeric value and sit
between the characters below '0' (e.g. '.', '-') and the rest; other
characters compare by case-folded code point (sensitivity 'base'). -/
def tokenKey : VTok → Nat × Nat
  | .num v _ => (1, v)
  | .sym c => (if c.toNat < 48 then 0 else 2, c.toLower.toNat)

/-- Model of `a.localeCompare(b, undefined, numeric: true,
sensitivity: 'base')`: the mixed numeric/lexicographic version ordering. -/
def vcmp (a b : String) : Ordering :=
  cmpLex (keyedCmp tokenKey) (lexVer a.data) (lexVer b.data)

/-- Ascending order relation for the version comparator. -/
def vleStr (a b : String) : Prop := vcmp a b ≠ Ordering.gt

instance : DecidableRel vleStr := fun _ _ => instDecidableNot

/-- JavaScript `String.prototype.split` on character lists. -/
def splitCharsOn (sep : Char) : List Char → List (List Char)
  | [] => [[]]
  | c :: cs =>
    if c = sep then [] :: splitCharsOn sep cs
    else
      match splitCharsOn sep cs with
      | h :: t => (c :: h) :: t
      | [] => [[c]]

/-- JavaScript `s.split(sep)` for a single-character separator. -/
def jsSplit (s : String) (sep : Char) : List String :=
  (splitCharsOn sep s.data).map (fun cs => String.mk cs)

/-- JavaScript `x || d` for a possibly-undefined string: `undefined` and the
empty string are falsy and yield the default. -/
def jsOrStr : Option String → String → String
  | none, d => d
  | some s, d => if s = "" then d else s

/-- JavaScript template interpolation of a possibly-undefined string value. -/
def optValStr : Option String → String
  | none => "undefined"
  | some s => s

/-- JavaScript `Object.entries` applied to an array: index/value pairs with
the index rendered in decimal. -/
def jsArrayEntries {α : Type} (l : List α) : List (String × α) :=
  l.enum.map (fun p => (Nat.repr p.1, p.2))

/-- A dependency record as stored in gem metadata (`GemDependency` in
`types.ts`); `requirements` may be absent at runtime. -/
structure GemDependency where
  name : String
  requirements : Option String
deriving DecidableEq

/-- Runtime shape of a stored gem metadata record (`GemMetadata` in
`types.ts`, plus the `sha` and `downloads` fields that `utils.ts` reads and
writes).  Fields other than `name` and `version` may be absent. -/
structure GemMetadata where
  name : String
  version : String
  platform : Option String := none
  authors : Option String := none
  info : Option String := none
  created_at : Option String := none
  dependencies : Option (List GemDependency) := none
  sha256 : Option String := none
  size : Option Nat := none
  sha : Option String := none
  downloads : Option Nat := none
deriving DecidableEq

/-- The KV namespace: stored key/record pairs. -/
abbrev KVStore := List (String × GemMetadata)

/-- `kv.get(key, 'json')`: the record stored under `key`. -/
def kvGet (store : KVStore) (key : String) : Option GemMetadata :=
  (store.find? (fun p => p.1 = key)).map (fun p => p.2)

/-- `kv.put(key, JSON.stringify(value))`: overwrite the entry for `key`, or
append a fresh one. -/
def kvPut (store : KVStore) (key : String) (value : GemMetadata) : KVStore :=
  if store.any (fun p => p.1 = key) then
    store.map (fun p => if p.1 = key then (key, value) else p)
  else store ++ [(key, value)]

/-- Key layout used by `saveGem` and friends. -/
def mkGemKey (name version : String) : String :=
  "gem:" ++ name ++ ":" ++ version

/-- Ascending key order for pairs, modelling the lexicographic key order in
which `kv.list` returns keys. -/
def keyLe (p q : String × GemMetadata) : Prop := strCmp p.1 q.1 ≠ Ordering.gt

instance : DecidableRel keyLe := fun _ _ => instDecidableNot

/-- `kv.list(prefix)` followed by `kv.get` of each key: the stored entries
whose key starts with `pre`, in lexicographic key order. -/
def listEntries (store : KVStore) (pre : String) : List (String × GemMetadata) :=
  (store.filter (fun p => pre.data.isPrefixOf p.1.data)).insertionSort keyLe

/-- `incrementDownloads(kv, name, version)` from `utils.ts`: bump the
`downloads` field of the record at `gem:<name>:<version>` if present. -/
def incrementDownloads (store : KVStore) (name version : String) : KVStore :=
  match kvGet store (mkGemKey name version) with
  | none => store
  | some g =>
      kvPut store (mkGemKey name version)
        { g with downloads := some (g.downloads.getD 0 + 1) }

/-- Descending version order on records, modelling the comparator
`(a, b) => b.version.localeCompare(a.version, ..., numeric)` used by
`getGem`. -/
def vgeGem (a b : GemMetadata) : Prop := vcmp b.version a.version ≠ Ordering.gt

instance : DecidableRel vgeGem := fun _ _ => instDecidableNot

/-- Ascending version order on records, modelling the comparator
`(a, b) => a.version.localeCompare(b.version, ..., numeric)` used by
`generateInfoContent`. -/
def vleGem (a b : GemMetadata) : Prop := vcmp a.version b.version ≠ Ordering.gt

instance : DecidableRel vleGem := fun _ _ => instDecidableNot

/-- `getGem(kv, name)` from `utils.ts`: list all versions of one gem, sort
newest first, return the first. -/
def getGem (store : KVStore) (name : String) : Option GemMetadata :=
  let entries := listEntries store ("gem:" ++ name ++ ":")
  if entries.isEmpty then none
  else ((entries.map (fun p => p.2)).insertionSort vgeGem).head?

/-- Dependency fragment of an info line:
`gem.dependencies ? Object.entries(gem.dependencies).map(([name, version]) =>
name + ":" + version).join(',') : ''`.  The entries of the dependencies
array are index/object pairs, and interpolating the object gives
"[object Object]". -/
def infoDeps : Option (List GemDependency) → String
  | none => ""
  | some deps =>
      String.intercalate ","
        ((jsArrayEntries deps).map (fun p => p.1 ++ ":" ++ "[object Object]"))

/-- One line of the per-package info artifact:
`gem.version + "," + gem.sha + "," + (gem.platform || 'ruby') + "," + deps + "\n"`. -/
def infoLine (g : GemMetadata) : String :=
  g.version ++ "," ++ optValStr g.sha ++ "," ++ jsOrStr g.platform "ruby"
    ++ "," ++ infoDeps g.dependencies ++ "\n"

/-- The versions of one gem in the order `generateInfoContent` emits them:
listed from KV and sorted ascending by the version comparator. -/
def infoVersions (store : KVStore) (gemName : String) : List GemMetadata :=
  ((listEntries store ("gem:" ++ gemName ++ ":")).map (fun p => p.2)).insertionSort vleGem

/-- Concatenation of emitted lines, modelling the `content += line` loop. -/
def concatLines : List String → String
  | [] => ""
  | s :: rest => s ++ concatLines rest

/-- `generateInfoContent(kv, gemName)` from `utils.ts`. -/
def generateInfoContent (store : KVStore) (gemName : String) : String :=
  concatLines ((infoVersions store gemName).map infoLine)

/-- Name extraction of `generateNamesContent`: split the key on ':' and take
`parts[1]` when there are at least two parts. -/
def extractName (key : String) : Option String :=
  match jsSplit key ':' with
  | _ :: n :: _ => some n
  | _ => none

/-- JavaScript `Set` insertion followed by `Array.from`: first occurrence of
each element, in encounter order. -/
def dedupFirst (l : List String) : List String :=
  l.foldl (fun acc n => if n ∈ acc then acc else acc ++ [n]) []

/-- The names extracted from all keys with the `gem:` prefix. -/
def gemNamesRaw (store : KVStore) : List String :=
  (listEntries store "gem:").filterMap (fun p => extractName p.1)

/-- The deduplicated, default-sorted list `Array.from(gemNames).sort()`. -/
def namesArtifactList (store : KVStore) : List String :=
  (dedupFirst (gemNamesRaw store)).insertionSort strLe

/-- `generateNamesContent(kv)` from `utils.ts`:
`Array.from(gemNames).sort().join("\n")`. -/
def generateNamesContent (store : KVStore) : String :=
  String.intercalate "\n" (namesArtifactList store)

/-- Append a version to the group of a name, creating the group at the end
if absent — JS plain-object property insertion for the non-integer-like
keys used here. -/
def addVersion : List (String × List String) → String → String → List (String × List String)
  | [], n, v => [(n, [v])]
  | (m, vs) :: rest, n, v =>
    if m = n then (m, vs ++ [v]) :: rest
    else (m, vs) :: addVersion rest n v

/-- The `gemVersions` grouping built by `generateVersionsContent`. -/
def versionGroups (store : KVStore) : List (String × List String) :=
  (listEntries store "gem:").foldl (fun gs p => addVersion gs p.2.name p.2.version) []

/-- One line of the versions artifact: `name + " " + versions.join(',') + "\n"`
with the versions sorted ascending by the version comparator. -/
def versionsLine (p : String × List String) : String :=
  p.1 ++ " " ++ String.intercalate "," (p.2.insertionSort vleStr) ++ "\n"

/-- `generateVersionsContent(kv)` from `utils.ts`. -/
def generateVersionsContent (store : KVStore) : String :=
  concatLines ((versionGroups store).map versionsLine)

/-- An element of the sequence handed to Marshal `dump` by
`generateDependenciesResponse`. -/
structure DepEntry where
  name : String
  number : String
  platform : String
  dependencies : List (String × String)
deriving DecidableEq

/-- The per-record entry built by `generateDependenciesResponse`:
dependencies become `[dep.name, dep.requirements || ">= 0"]` pairs. -/
def toDepEntry (g : GemMetadata) : DepEntry where
  name := g.name
  number := g.version
  platform := jsOrStr g.platform "ruby"
  dependencies :=
    (g.dependencies.getD []).map (fun d => (d.name, jsOrStr d.requirements ">= 0"))

/-- The sequence handed to `dump` by `generateDependenciesResponse`:
`gems.filter(gem => requestedGems.includes(gem.name)).map(...)`. -/
def dependenciesData (gems : List GemMetadata) (requestedGems : List String) : List DepEntry :=
  (gems.filter (fun g => requestedGems.contains g.name)).map toDepEntry

/-- `generateDependenciesResponse(gems, requestedGems)` with the Marshal
codec left uninterpreted. -/
def generateDependenciesResponse {β : Type} (dump : List DepEntry → β)
    (gems : List GemMetadata) (requestedGems : List String) : β :=
  dump (dependenciesData gems requestedGems)

/-- The `[name, version, platform || 'ruby']` triple used by the specs
index encoders. -/
def specTriple (g : GemMetadata) : String × String × String :=
  (g.name, g.version, jsOrStr g.platform "ruby")

/-- `updateSpecsIndexInR2(r2, gems)` from `utils.ts`, as the list of
key/bytes pairs written to R2, with Marshal `dump` and gzip compression
left uninterpreted. -/
def updateSpecsIndexPuts {β γ : Type} (dump : List (String × String × String) → β)
    (gzipC : β → γ) (gems : List GemMetadata) : List (String × γ) :=
  let gzipResult := gzipC (dump (gems.map specTriple))
  [("specs.4.8.gz", gzipResult),
   ("latest_specs.4.8.gz", gzipResult),
   ("prerelease_specs.4.8.gz", gzipC (dump []))]

/-- Bytes written under one R2 key by a list of puts. -/
def r2Written {γ : Type} (puts : List (String × γ)) (key : String) : Option γ :=
  (puts.find? (fun p => p.1 = key)).map (fun p => p.2)

/-- Base64 value of one alphabet character (`atob` semantics). -/
def b64Val (c : Char) : Nat :=
  if 65 ≤ c.toNat ∧ c.toNat ≤ 90 then c.toNat - 65
  else if 97 ≤ c.toNat ∧ c.toNat ≤ 122 then c.toNat - 71
  else if 48 ≤ c.toNat ∧ c.toNat ≤ 57 then c.toNat + 4
  else if c = '+' then 62
  else if c = '/' then 63
  else 0

/-- Decode base64 characters (padding already stripped) four at a time into
bytes, as `atob` followed by `charCodeAt` does. -/
def b64Chunks : List Char → List Nat
  | a :: b :: c :: d :: rest =>
      (b64Val a * 4 + b64Val b / 16) ::
      ((b64Val b % 16) * 16 + b64Val c / 4) ::
      ((b64Val c % 4) * 64 + b64Val d) :: b64Chunks rest
  | [a, b] => [b64Val a * 4 + b64Val b / 16]
  | [a, b, c] =>
      [b64Val a * 4 + b64Val b / 16, (b64Val b % 16) * 16 + b64Val c / 4]
  | _ => []

/-- The byte list produced by `atob(s)` + `charCodeAt`, for a base64 string. -/
def base64Decode (s : String) : List Nat :=
  b64Chunks (s.data.filter (fun c => c ≠ '='))

/-- `generateValidSpecsGz()` from `utils.ts`: the hard-coded base64 fallback
artifact, decoded to bytes. -/
def generateValidSpecsGz : List Nat :=
  base64Decode "eJzLSM3JyVcozy/KSQEAGgsEXQ=="

/-- `generateSpecsGz(kv)` from `utils.ts` with the Marshal+gzip pipeline
left uninterpreted as a fallible `encode`; the catch branch falls back to
`generateValidSpecsGz()`. -/
def generateSpecsGz (encode : List (String × String × String) → Option (List Nat))
    (gems : List GemMetadata) : List Nat :=
  match encode (gems.map specTriple) with
  | some bytes => bytes
  | none => generateValidSpecsGz

/-- Well-formedness of one stored entry: the key is `gem:<name>:<version>`
for the record it holds, splits accordingly, and carries the `gem:` marker. -/
def wfEntry (p : String × GemMetadata) : Prop :=
  p.1 = mkGemKey p.2.name p.2.version
  ∧ jsSplit p.1 ':' = ["gem", p.2.name, p.2.version]
  ∧ ("gem:").data.isPrefixOf p.1.data = true

instance : DecidablePred wfEntry := fun p => by unfold wfEntry; infer_instance

/-- Every stored entry is well-formed. -/
def wfStore (store : KVStore) : Prop := ∀ p ∈ store, wfEntry p

instance : DecidablePred wfStore := fun store => List.decidableBAll wfEntry store

/-- The stored keys are pairwise distinct (KV keys are unique). -/
def nodupKeys (store : KVStore) : Prop := (store.map (fun p => p.1)).Nodup

instance : DecidablePred nodupKeys := fun store => by unfold nodupKeys; infer_instance

/-- The dependency record of the spec scenario for claim C1. -/
def depBar : GemDependency := { name := "bar", requirements := some ">= 0" }

/-- The uploaded record of the spec scenario for claim C1. -/
def gemFoo100 : GemMetadata :=
  { name := "foo", version := "1.0.0", platform := some "ruby",
    dependencies := some [depBar], sha := some "h" }

/-- Store holding exactly the C1 scenario record. -/
def storeC1 : KVStore := [(mkGemKey "foo" "1.0.0", gemFoo100)]

/-- A record with no dependencies, for claim C7. -/
def gemNoDeps : GemMetadata :=
  { name := "foo", version := "1.0.0", platform := some "ruby", sha := some "h" }

/-- Store holding exactly the no-dependency record. -/
def storeC7 : KVStore := [(mkGemKey "foo" "1.0.0", gemNoDeps)]

/-- Version 1.0.0 record of the C8 scenario. -/
def gemFooV1 : GemMetadata := { name := "foo", version := "1.0.0", sha := some "h1" }

/-- Version 2.0.0 record of the C8 scenario. -/
def gemFooV2 : GemMetadata := { name := "foo", version := "2.0.0", sha := some "h2" }

/-- C8 store, 1.0.0 uploaded first. -/
def storeC8a : KVStore :=
  [(mkGemKey "foo" "1.0.0", gemFooV1), (mkGemKey "foo" "2.0.0", gemFooV2)]

/-- C8 store, 2.0.0 uploaded first. -/
def storeC8b : KVStore :=
  [(mkGemKey "foo" "2.0.0", gemFooV2), (mkGemKey "foo" "1.0.0", gemFooV1)]

/-- A record whose single dependency has no requirements string, for C10. -/
def gemBaz : GemMetadata :=
  { name := "baz", version := "0.1.0",
    dependencies := some [{ name := "qux", requirements := none }] }

/-- Lookup of a group by name in the grouping accumulator. -/
def lookupG : List (String × List String) → String → Option (List String)
  | [], _ => none
  | g :: gs, n => if g.1 = n then some g.2 else lookupG gs n

/-- The name/version pairs of the listed entries, in listing order. -/
def entryPairs (store : KVStore) : List (String × String) :=
  (listEntries store "gem:").map (fun p => (p.2.name, p.2.version))

/-- The versions paired with a given name, in order. -/
def groupSpec (ps : List (String × String)) (n : String) : List String :=
  (ps.filter (fun q => q.1 = n)).map (fun q => q.2)

/-! Comparator lemmas. -/

theorem compareKey_lt_iff (p q : Nat × Nat) :
    compareKey p q = Ordering.lt ↔ p.1 < q.1 ∨ (p.1 = q.1 ∧ p.2 < q.2) := by
  unfold compareKey
  rcases Nat.lt_trichotomy p.1 q.1 with h | h | h
  · rw [Nat.compare_eq_lt.mpr h]
    simp [Ordering.then, h]
  · rw [Nat.compare_eq_eq.mpr h]
    simp [Ordering.then, Nat.compare_eq_lt, h]
  · rw [Nat.compare_eq_gt.mpr h]
    simp [Ordering.then]
    omega

theorem compareKey_eq_iff (p q : Nat × Nat) :
    compareKey p q = Ordering.eq ↔ p = q := by
  unfold compareKey
  rcases Nat.lt_trichotomy p.1 q.1 with h | h | h
  · rw [Nat.compare_eq_lt.mpr h]
    simp [Ordering.then, Prod.ext_iff]
    omega
  · rw [Nat.compare_eq_eq.mpr h]
    simp [Ordering.then, Nat.compare_eq_eq, Prod.ext_iff, h]
  · rw [Nat.compare_eq_gt.mpr h]
    simp [Ordering.then, Prod.ext_iff]
    omega

theorem compareKey_swap (p q : Nat × Nat) :
    compareKey q p = (compareKey p q).swap := by
  unfold compareKey
  rw [Ordering.swap_then, Nat.compare_swap, Nat.compare_swap]

theorem compareKey_gt_iff (p q : Nat × Nat) :
    compareKey p q = Ordering.gt ↔ q.1 < p.1 ∨ (q.1 = p.1 ∧ q.2 < p.2) := by
  unfold compareKey
  rcases Nat.lt_trichotomy p.1 q.1 with h | h | h
  · rw [Nat.compare_eq_lt.mpr h]
    simp [Ordering.then]
    omega
  · rw [Nat.compare_eq_eq.mpr h]
    simp [Ordering.then, Nat.compare_eq_gt, h]
  · rw [Nat.compare_eq_gt.mpr h]
    simp [Ordering.then]
    omega

theorem compareKey_lt_trans {p q r : Nat × Nat} (h1 : compareKey p q = Ordering.lt)
    (h2 : compareKey q r = Ordering.lt) : compareKey p r = Ordering.lt := by
  rw [compareKey_lt_iff] at h1 h2 ⊢
  omega

theorem cmpLex_keyed_swap {α : Type} (k : α → Nat × Nat) :
    ∀ (as bs : List α), cmpLex (keyedCmp k) bs as = (cmpLex (keyedCmp k) as bs).swap
  | [], [] => rfl
  | [], _ :: _ => rfl
  | _ :: _, [] => rfl
  | a :: as, b :: bs => by
    simp only [cmpLex, keyedCmp]
    rw [compareKey_swap (k a) (k b)]
    cases hc : compareKey (k a) (k b) <;>
      simp [Ordering.swap, cmpLex_keyed_swap k as bs]

theorem cmpLex_keyed_eq_iff {α : Type} (k : α → Nat × Nat) :
    ∀ (as bs : List α),
      cmpLex (keyedCmp k) as bs = Ordering.eq ↔ as.map k = bs.map k
  | [], [] => by simp [cmpLex]
  | [], _ :: _ => by simp [cmpLex]
  | _ :: _, [] => by simp [cmpLex]
  | a :: as, b :: bs => by
    simp only [cmpLex, keyedCmp, List.map_cons]
    cases hc : compareKey (k a) (k b) with
    | eq =>
      have hk := (compareKey_eq_iff (k a) (k b)).mp hc
      simp [hk, cmpLex_keyed_eq_iff k as bs]
    | lt =>
      refine iff_of_false (by simp) ?_
      intro h
      have hk : k a = k b := (List.cons.injEq _ _ _ _ ▸ h).1
      have := (compareKey_eq_iff (k a) (k b)).mpr hk
      rw [this] at hc
      cases hc
    | gt =>
      refine iff_of_false (by simp) ?_
      intro h
      have hk : k a = k b := (List.cons.injEq _ _ _ _ ▸ h).1
      have := (compareKey_eq_iff (k a) (k b)).mpr hk
      rw [this] at hc
      cases hc

theorem cmpLex_keyed_lt_trans {α : Type} (k : α → Nat × Nat) :
    ∀ (as bs cs : List α), cmpLex (keyedCmp k) as bs = Ordering.lt →
      cmpLex (keyedCmp k) bs cs = Ordering.lt →
      cmpLex (keyedCmp k) as cs = Ordering.lt := by
  intro as
  induction as with
  | nil =>
    intro bs cs h1 h2
    cases bs with
    | nil => simp [cmpLex] at h1
    | cons b bs =>
      cases cs with
      | nil => simp [cmpLex] at h2
      | cons c cs => simp [cmpLex]
  | cons a as ih =>
    intro bs cs h1 h2
    cases bs with
    | nil => simp [cmpLex] at h1
    | cons b bs =>
      cases cs with
      | nil => simp [cmpLex] at h2
      | cons c cs =>
        simp only [cmpLex, keyedCmp] at h1 h2 ⊢
        cases hab : compareKey (k a) (k b) with
        | lt =>
          cases hbc : compareKey (k b) (k c) with
          | lt => simp [compareKey_lt_trans hab hbc]
          | eq =>
            have hk := (compareKey_eq_iff (k b) (k c)).mp hbc
            rw [← hk, hab]
          | gt => rw [hbc] at h2; cases h2
        | eq =>
          rw [hab] at h1
          have hk := (compareKey_eq_iff (k a) (k b)).mp hab
          cases hbc : compareKey (k b) (k c) with
          | lt => rw [hk, hbc]
          | eq =>
            rw [hbc] at h2
            have hk2 := (compareKey_eq_iff (k b) (k c)).mp hbc
            rw [hk, hk2, (compareKey_eq_iff (k c) (k c)).mpr rfl]
            exact ih bs cs h1 h2
          | gt => rw [hbc] at h2; cases h2
        | gt => rw [hab] at h1; cases h1

theorem cmpLex_keyed_congr_left {α : Type} (k : α → Nat × Nat) :
    ∀ (as bs cs : List α), as.map k = bs.map k →
      cmpLex (keyedCmp k) as cs = cmpLex (keyedCmp k) bs cs := by
  intro as
  induction as with
  | nil =>
    intro bs cs h
    have : bs = [] := by
      cases bs with
      | nil => rfl
      | cons b bs => simp at h
    rw [this]
  | cons a as ih =>
    intro bs cs h
    cases bs with
    | nil => simp at h
    | cons b bs =>
      simp only [List.map_cons, List.cons.injEq] at h
      cases cs with
      | nil => simp [cmpLex]
      | cons c cs =>
        simp only [cmpLex, keyedCmp, h.1]
        cases hc : compareKey (k b) (k c) <;> simp [ih bs cs h.2]

theorem cmpLex_keyed_le_trans {α : Type} (k : α → Nat × Nat)
    (as bs cs : List α) (h1 : cmpLex (keyedCmp k) as bs ≠ Ordering.gt)
    (h2 : cmpLex (keyedCmp k) bs cs ≠ Ordering.gt) :
    cmpLex (keyedCmp k) as cs ≠ Ordering.gt := by
  cases hab : cmpLex (keyedCmp k) as bs with
  | gt => exact absurd hab h1
  | eq =>
    rw [cmpLex_keyed_congr_left k as bs cs ((cmpLex_keyed_eq_iff k as bs).mp hab)]
    exact h2
  | lt =>
    cases hbc : cmpLex (keyedCmp k) bs cs with
    | gt => exact absurd hbc h2
    | eq =>
      have hmap : bs.map k = cs.map k := (cmpLex_keyed_eq_iff k bs cs).mp hbc
      have : cmpLex (keyedCmp k) as cs = cmpLex (keyedCmp k) as bs := by
        rw [cmpLex_keyed_swap k cs as,
          cmpLex_keyed_congr_left k cs bs as hmap.symm,
          cmpLex_keyed_swap k as bs, Ordering.swap_swap]
      rw [this, hab]
      simp
    | lt =>
      rw [cmpLex_keyed_lt_trans k as bs cs hab hbc]
      simp

theorem cmpLex_keyed_total {α : Type} (k : α → Nat × Nat) (as bs : List α) :
    cmpLex (keyedCmp k) as bs ≠ Ordering.gt ∨ cmpLex (keyedCmp k) bs as ≠ Ordering.gt := by
  by_cases h : cmpLex (keyedCmp k) as bs = Ordering.gt
  · right
    rw [cmpLex_keyed_swap k as bs, h]
    simp [Ordering.swap]
  · left
    exact h

instance : IsTotal String strLe :=
  ⟨fun a b => cmpLex_keyed_total charKey a.data b.data⟩

instance : IsTrans String strLe :=
  ⟨fun a b c => cmpLex_keyed_le_trans charKey a.data b.data c.data⟩

instance : IsTotal String vleStr :=
  ⟨fun a b => cmpLex_keyed_total tokenKey (lexVer a.data) (lexVer b.data)⟩

instance : IsTrans String vleStr :=
  ⟨fun a b c =>
    cmpLex_keyed_le_trans tokenKey (lexVer a.data) (lexVer b.data) (lexVer c.data)⟩

instance : IsTotal GemMetadata vleGem :=
  ⟨fun a b => cmpLex_keyed_total tokenKey (lexVer a.version.data) (lexVer b.version.data)⟩

instance : IsTrans GemMetadata vleGem :=
  ⟨fun a b c =>
    cmpLex_keyed_le_trans tokenKey (lexVer a.version.data) (lexVer b.version.data)
      (lexVer c.version.data)⟩

instance : IsTotal GemMetadata vgeGem :=
  ⟨fun a b => cmpLex_keyed_total tokenKey (lexVer b.version.data) (lexVer a.version.data)⟩

instance : IsTrans GemMetadata vgeGem :=
  ⟨fun a b c h1 h2 =>
    cmpLex_keyed_le_trans tokenKey (lexVer c.version.data) (lexVer b.version.data)
      (lexVer a.version.data) h2 h1⟩

instance : IsTotal (String × GemMetadata) keyLe :=
  ⟨fun p q => cmpLex_keyed_total charKey p.1.data q.1.data⟩

instance : IsTrans (String × GemMetadata) keyLe :=
  ⟨fun p q r => cmpLex_keyed_le_trans charKey p.1.data q.1.data r.1.data⟩

/-! Bridge from the embedded JS string comparator to the library order on
strings, and helper lemmas about the small list combinators. -/

theorem lex_lt_strCmp : ∀ {xs ys : List Char}, List.Lex (· < ·) xs ys →
    cmpLex (keyedCmp charKey) ys xs = Ordering.gt
  | _, _, .nil => by simp [cmpLex]
  | _, _, .cons h => by
    simp only [cmpLex, keyedCmp]
    rw [(compareKey_eq_iff _ _).mpr rfl]
    exact lex_lt_strCmp h
  | _, _, @List.Lex.rel _ _ a _ b _ hab => by
    simp only [cmpLex, keyedCmp]
    have hn : a.toNat < b.toNat := Char.lt_def.mp hab
    have hk : compareKey (charKey b) (charKey a) = Ordering.gt := by
      rw [compareKey_gt_iff]
      simp [charKey]
      exact hn
    rw [hk]

theorem strLe_le {a b : String} (h : strLe a b) : a ≤ b := by
  apply le_of_not_lt
  intro hba
  have h1 := String.lt_iff_toList_lt.mp hba
  exact h (lex_lt_strCmp h1)

theorem concatLines_mem_split {α : Type} (f : α → String) :
    ∀ {l : List α} {x : α}, x ∈ l →
      ∃ s t, concatLines (l.map f) = s ++ f x ++ t := by
  intro l
  induction l with
  | nil => intro x hx; cases hx
  | cons a l ih =>
    intro x hx
    rcases List.mem_cons.mp hx with rfl | hx2
    · exact ⟨"", concatLines (l.map f), rfl⟩
    · obtain ⟨s, t, hst⟩ := ih hx2
      refine ⟨f a ++ s, t, ?_⟩
      show f a ++ concatLines (l.map f) = f a ++ s ++ f x ++ t
      rw [hst]
      simp [String.append_assoc]

theorem mem_dedupFirst_foldl :
    ∀ (l acc : List String) (x : String),
      (x ∈ l.foldl (fun acc n => if n ∈ acc then acc else acc ++ [n]) acc) ↔
        x ∈ acc ∨ x ∈ l := by
  intro l
  induction l with
  | nil => intro acc x; simp
  | cons n l ih =>
    intro acc x
    simp only [List.foldl_cons]
    rw [ih]
    by_cases h : n ∈ acc
    · simp only [h, if_true, List.mem_cons]
      constructor
      · rintro (hx | hx)
        · exact Or.inl hx
        · exact Or.inr (Or.inr hx)
      · rintro (hx | rfl | hx)
        · exact Or.inl hx
        · exact Or.inl h
        · exact Or.inr hx
    · simp only [h, if_false, List.mem_append, List.mem_singleton, List.mem_cons]
      tauto

theorem dedupFirst_nodup_foldl :
    ∀ (l acc : List String), acc.Nodup →
      (l.foldl (fun acc n => if n ∈ acc then acc else acc ++ [n]) acc).Nodup := by
  intro l
  induction l with
  | nil => intro acc h; simpa using h
  | cons n l ih =>
    intro acc h
    simp only [List.foldl_cons]
    by_cases hn : n ∈ acc
    · simp only [hn, if_true]
      exact ih acc h
    · simp only [hn, if_false]
      refine ih _ (List.nodup_append.mpr ⟨h, List.nodup_singleton n, ?_⟩)
      intro x hx hx1
      rw [List.mem_singleton] at hx1
      exact hn (hx1 ▸ hx)

theorem dedupFirst_nodup (l : List String) : (dedupFirst l).Nodup :=
  dedupFirst_nodup_foldl l [] List.nodup_nil

theorem mem_dedupFirst (l : List String) (x : String) :
    x ∈ dedupFirst l ↔ x ∈ l := by
  unfold dedupFirst
  rw [mem_dedupFirst_foldl]
  simp

/-! Lemmas about the KV store model. -/

theorem find?_mapPut_self (store : KVStore) (key : String) (value : GemMetadata) :
    (store.map (fun p => if p.1 = key then (key, value) else p)).find?
        (fun p => p.1 = key)
      = (store.find? (fun p => p.1 = key)).map (fun _ => (key, value)) := by
  induction store with
  | nil => rfl
  | cons p store ih =>
    rw [List.map_cons]
    by_cases h : p.1 = key
    · rw [if_pos h, List.find?_cons_of_pos _ (by simp),
        List.find?_cons_of_pos _ (by simp [h])]
      rfl
    · rw [if_neg h, List.find?_cons_of_neg _ (by simp [h]),
        List.find?_cons_of_neg _ (by simp [h])]
      exact ih

theorem find?_mapPut_other (store : KVStore) (key : String) (value : GemMetadata)
    (q : String) (hq : q ≠ key) :
    (store.map (fun p => if p.1 = key then (key, value) else p)).find?
        (fun p => p.1 = q)
      = store.find? (fun p => p.1 = q) := by
  induction store with
  | nil => rfl
  | cons p store ih =>
    rw [List.map_cons]
    by_cases h : p.1 = key
    · rw [if_pos h,
        List.find?_cons_of_neg _ (by simp; exact fun he => hq he.symm),
        List.find?_cons_of_neg _ (by simp [h]; exact fun he => hq he.symm)]
      exact ih
    · rw [if_neg h]
      by_cases h2 : p.1 = q
      · rw [List.find?_cons_of_pos _ (by simp [h2]),
          List.find?_cons_of_pos _ (by simp [h2])]
      · rw [List.find?_cons_of_neg _ (by simp [h2]),
          List.find?_cons_of_neg _ (by simp [h2])]
        exact ih

theorem find?_append_singleton_other (store : KVStore) (key : String)
    (value : GemMetadata) (q : String) (hq : q ≠ key) :
    (store ++ [(key, value)]).find? (fun p => p.1 = q)
      = store.find? (fun p => p.1 = q) := by
  induction store with
  | nil =>
    simp only [List.nil_append]
    rw [List.find?_cons_of_neg _ (by simp; exact fun he => hq he.symm)]
  | cons p store ih =>
    by_cases h : p.1 = q
    · rw [List.cons_append, List.find?_cons_of_pos _ (by simp [h]),
        List.find?_cons_of_pos _ (by simp [h])]
    · rw [List.cons_append, List.find?_cons_of_neg _ (by simp [h]),
        List.find?_cons_of_neg _ (by simp [h])]
      exact ih

theorem any_of_kvGet_some {store : KVStore} {key : String} {g : GemMetadata}
    (h : kvGet store key = some g) : store.any (fun p => p.1 = key) = true := by
  unfold kvGet at h
  cases hf : store.find? (fun p => p.1 = key) with
  | none => rw [hf] at h; cases h
  | some q =>
    have h3 := List.find?_some hf
    exact List.any_eq_true.mpr ⟨q, List.mem_of_find?_eq_some hf, h3⟩

/-! Lemmas about well-formed stores. -/

theorem listEntries_gem_perm (store : KVStore) (hwf : wfStore store) :
    (listEntries store "gem:").Perm store := by
  unfold listEntries
  have hfil : store.filter (fun p => ("gem:").data.isPrefixOf p.1.data) = store :=
    List.filter_eq_self.mpr (fun p hp => (hwf p hp).2.2)
  rw [hfil]
  exact List.perm_insertionSort keyLe store

theorem extractName_wf {p : String × GemMetadata} (h : wfEntry p) :
    extractName p.1 = some p.2.name := by
  unfold extractName
  rw [h.2.1]

/-! Lemmas about the versions grouping of `generateVersionsContent`. -/

theorem lookupG_addVersion :
    ∀ (gs : List (String × List String)) (n v m : String),
      lookupG (addVersion gs n v) m =
        if m = n then some ((lookupG gs n).getD [] ++ [v]) else lookupG gs m := by
  intro gs
  induction gs with
  | nil =>
    intro n v m
    by_cases h : m = n
    · simp [addVersion, lookupG, h]
    · rw [if_neg h]
      simp [addVersion, lookupG, show n ≠ m from fun he => h he.symm]
  | cons g gs ih =>
    intro n v m
    obtain ⟨a, vs⟩ := g
    simp only [addVersion]
    by_cases han : a = n
    · rw [if_pos han]
      by_cases hm : m = n
      · have ham : a = m := han.trans hm.symm
        simp [lookupG, ham, han, hm]
      · rw [if_neg hm]
        have ham : a ≠ m := fun he => hm ((he ▸ han : m = n))
        simp [lookupG, ham]
    · rw [if_neg han]
      by_cases ham : a = m
      · have hmn : ¬ m = n := fun he => han (ham.trans he)
        simp [lookupG, ham, hmn]
      · simp [lookupG, ham, han, ih n v m]

theorem mem_lookupG :
    ∀ {gs : List (String × List String)} {n : String} {vs : List String},
      (gs.map (fun g => g.1)).Nodup → (n, vs) ∈ gs → lookupG gs n = some vs := by
  intro gs
  induction gs with
  | nil => intro n vs _ h; cases h
  | cons g gs ih =>
    intro n vs hnd hmem
    have hnd2 : g.1 ∉ gs.map (fun g => g.1) ∧ (gs.map (fun g => g.1)).Nodup :=
      List.nodup_cons.mp (by simpa using hnd)
    rcases List.mem_cons.mp hmem with rfl | hmem2
    · simp [lookupG]
    · have h2 : n ∈ gs.map (fun g => g.1) := List.mem_map.mpr ⟨(n, vs), hmem2, rfl⟩
      have hne : g.1 ≠ n := fun he => hnd2.1 (he ▸ h2)
      simp only [lookupG, if_neg hne]
      exact ih hnd2.2 hmem2

theorem keys_addVersion :
    ∀ (gs : List (String × List String)) (n v : String),
      (addVersion gs n v).map (fun g => g.1) =
        if n ∈ gs.map (fun g => g.1) then gs.map (fun g => g.1)
        else gs.map (fun g => g.1) ++ [n] := by
  intro gs
  induction gs with
  | nil => intro n v; simp [addVersion]
  | cons g gs ih =>
    intro n v
    obtain ⟨a, vs⟩ := g
    simp only [addVersion]
    by_cases han : a = n
    · rw [if_pos han]
      simp [han]
    · rw [if_neg han]
      simp only [List.map_cons, ih n v]
      by_cases hmem : n ∈ gs.map (fun g => g.1)
      · simp [hmem, Ne.symm han]
      · simp [hmem, Ne.symm han]

theorem nodup_keys_foldG :
    ∀ (ps : List (String × String)) (acc : List (String × List String)),
      (acc.map (fun g => g.1)).Nodup →
      ((ps.foldl (fun gs q => addVersion gs q.1 q.2) acc).map (fun g => g.1)).Nodup := by
  intro ps
  induction ps with
  | nil => intro acc h; simpa using h
  | cons q ps ih =>
    intro acc h
    simp only [List.foldl_cons]
    apply ih
    rw [keys_addVersion]
    by_cases hmem : q.1 ∈ acc.map (fun g => g.1)
    · rw [if_pos hmem]; exact h
    · rw [if_neg hmem]
      rw [List.nodup_append]
      exact ⟨h, List.nodup_singleton _,
        fun x hx hx2 => hmem ((List.mem_singleton.mp hx2) ▸ hx)⟩

theorem lookupG_foldG :
    ∀ (ps : List (String × String)) (acc : List (String × List String)) (n : String),
      lookupG (ps.foldl (fun gs q => addVersion gs q.1 q.2) acc) n =
        if lookupG acc n = none ∧ n ∉ ps.map (fun q => q.1) then none
        else some ((lookupG acc n).getD [] ++ groupSpec ps n) := by
  intro ps
  induction ps with
  | nil =>
    intro acc n
    simp only [List.foldl_nil]
    cases h : lookupG acc n with
    | none => simp [h, groupSpec]
    | some vs => simp [h, groupSpec]
  | cons q ps ih =>
    intro acc n
    simp only [List.foldl_cons]
    rw [ih, lookupG_addVersion]
    by_cases hqn : n = q.1
    · have hgs : groupSpec (q :: ps) n = q.2 :: groupSpec ps n := by
        simp [groupSpec, List.filter_cons_of_pos, hqn]
      rw [hgs]
      rw [if_pos hqn]
      have hmem : n ∈ (q :: ps).map (fun r => r.1) := by simp [hqn]
      simp [hqn, hmem, List.append_assoc]
    · have hgs : groupSpec (q :: ps) n = groupSpec ps n := by
        simp [groupSpec, List.filter_cons_of_neg,
          show ¬ q.1 = n from fun he => hqn he.symm]
      rw [hgs, if_neg hqn]
      simp only [List.map_cons]
      by_cases hc : lookupG acc n = none ∧ n ∉ List.map (fun r => r.1) ps
      · rw [if_pos hc, if_pos ⟨hc.1, fun hm => by
          rcases List.mem_cons.mp hm with he | hm2
          · exact hqn he
          · exact hc.2 hm2⟩]
      · rw [if_neg hc, if_neg (fun hc2 =>
          hc ⟨hc2.1, fun hm => hc2.2 (List.mem_cons.mpr (Or.inr hm))⟩)]

theorem versionGroups_eq (store : KVStore) :
    versionGroups store =
      (entryPairs store).foldl (fun gs q => addVersion gs q.1 q.2) [] := by
  unfold versionGroups entryPairs
  rw [List.foldl_map]

theorem versionGroups_val {store : KVStore} {name : String} {vs : List String}
    (hmem : (name, vs) ∈ versionGroups store) :
    vs = groupSpec (entryPairs store) name := by
  have hkeys := nodup_keys_foldG (entryPairs store) [] (by simp)
  rw [versionGroups_eq] at hmem
  have hlk := mem_lookupG hkeys hmem
  rw [lookupG_foldG] at hlk
  by_cases hc : lookupG ([] : List (String × List String)) name = none ∧
      name ∉ (entryPairs store).map (fun q => q.1)
  · rw [if_pos hc] at hlk
    cases hlk
  · rw [if_neg hc] at hlk
    have := Option.some.inj hlk
    simpa [lookupG] using this.symm

theorem mem_groupSpec_iff (store : KVStore) (hwf : wfStore store) (name v : String) :
    v ∈ groupSpec (entryPairs store) name ↔
      ∃ p, p ∈ store ∧ p.2.name = name ∧ p.2.version = v := by
  unfold groupSpec entryPairs
  constructor
  · intro hv
    obtain ⟨q, hq, hq2⟩ := List.mem_map.mp hv
    have hqf := List.mem_filter.mp hq
    obtain ⟨p, hp, hp2⟩ := List.mem_map.mp hqf.1
    refine ⟨p, (listEntries_gem_perm store hwf).subset hp, ?_, ?_⟩
    · have hq1 : q.1 = name := by simpa using hqf.2
      rw [← hp2] at hq1
      exact hq1
    · rw [← hp2] at hq2
      exact hq2
  · rintro ⟨p, hp, hname, hver⟩
    have hp2 : p ∈ listEntries store "gem:" :=
      ((listEntries_gem_perm store hwf).mem_iff).mpr hp
    apply List.mem_map.mpr
    refine ⟨(p.2.name, p.2.version), ?_, hver⟩
    apply List.mem_filter.mpr
    exact ⟨List.mem_map.mpr ⟨p, hp2, rfl⟩, by simpa using hname⟩

theorem groupSpec_nodup (store : KVStore) (hwf : wfStore store) (hnd : nodupKeys store)
    (name : String) : (groupSpec (entryPairs store) name).Nodup := by
  have hperm := listEntries_gem_perm store hwf
  have hnd2 : (store.map (fun p => p.1)).Nodup := hnd
  have hknd : ((listEntries store "gem:").map (fun p => p.1)).Nodup :=
    ((hperm.map (fun p => p.1)).nodup_iff).mpr hnd2
  have hpw : (listEntries store "gem:").Pairwise (fun p q => p.1 ≠ q.1) :=
    List.pairwise_map.mp hknd
  have hwfe : ∀ p ∈ listEntries store "gem:", wfEntry p :=
    fun p hp => hwf p (hperm.subset hp)
  have hpw2 : (listEntries store "gem:").Pairwise
      (fun p q => p.2.name = q.2.name → p.2.version ≠ q.2.version) := by
    refine List.Pairwise.imp_of_mem ?_ hpw
    intro p q hp hq hne hnm hvr
    apply hne
    rw [(hwfe p hp).1, (hwfe q hq).1, hnm, hvr]
  have hpw3 : (entryPairs store).Pairwise (fun a b => a.1 = b.1 → a.2 ≠ b.2) := by
    unfold entryPairs
    exact List.pairwise_map.mpr hpw2
  have hpw4 := List.Pairwise.filter (fun q => q.1 = name) hpw3
  have hpw5 : ((entryPairs store).filter (fun q => q.1 = name)).Pairwise
      (fun a b => a.2 ≠ b.2) := by
    refine List.Pairwise.imp_of_mem ?_ hpw4
    intro a b ha hb hR
    have ha2 : a.1 = name := by simpa using (List.mem_filter.mp ha).2
    have hb2 : b.1 = name := by simpa using (List.mem_filter.mp hb).2
    exact hR (ha2.trans hb2.symm)
  unfold groupSpec
  exact List.Pairwise.map _ (fun a b h => h) hpw5

/-! Lemmas about the names artifact. -/

theorem mem_gemNamesRaw (store : KVStore) (hwf : wfStore store) (x : String) :
    x ∈ gemNamesRaw store ↔ ∃ p, p ∈ store ∧ p.2.name = x := by
  unfold gemNamesRaw
  rw [List.mem_filterMap]
  constructor
  · rintro ⟨p, hp, hx⟩
    have hps : p ∈ store := (listEntries_gem_perm store hwf).subset hp
    rw [extractName_wf (hwf p hps)] at hx
    exact ⟨p, hps, Option.some.inj hx⟩
  · rintro ⟨p, hp, hx⟩
    refine ⟨p, ((listEntries_gem_perm store hwf).mem_iff).mpr hp, ?_⟩
    rw [extractName_wf (hwf p hp), hx]

theorem gemNamesRaw_perm {store store' : KVStore} (hperm : store.Perm store') :
    (gemNamesRaw store).Perm (gemNamesRaw store') := by
  unfold gemNamesRaw listEntries
  exact ((List.perm_insertionSort keyLe _).trans
    ((hperm.filter _).trans (List.perm_insertionSort keyLe _).symm)).filterMap _

theorem contains_eq_decide_mem (l : List String) (a : String) :
    l.contains a = decide (a ∈ l) := by
  by_cases h : a ∈ l <;> simp [h]

/-- Claim C1: the spec asserts that the per-package info line for the record
`(name foo, version 1.0.0, platform ruby, dependencies [(bar, >= 0)])` with
content hash `h` is exactly `"1.0.0,h,ruby,bar:>= 0\n"`.  The code instead
applies `Object.entries` to the dependencies array, so each dependency is
rendered as its array index and `"[object Object]"`: the artifact produced
is `"1.0.0,h,ruby,0:[object Object]\n"`, not the claimed line. -/
theorem c1_info_line_rendering :
    generateInfoContent storeC1 "foo" = "1.0.0,h,ruby,0:[object Object]\n"
    ∧ generateInfoContent storeC1 "foo" ≠ "1.0.0,h,ruby,bar:>= 0\n" := by
  decide

/-- Claim C2 (counterexample): the names artifact is not newline-terminated.
For the store holding a single `foo` record, the produced artifact is the
bare string `"foo"`, which does not end with a newline. -/
theorem c2_names_not_newline_terminated :
    generateNamesContent storeC1 = "foo"
    ∧ ¬ ∃ s, generateNamesContent storeC1 = s ++ "\n" := by
  refine ⟨by decide, ?_⟩
  rintro ⟨s, h⟩
  rw [(by decide : generateNamesContent storeC1 = "foo")] at h
  have h3 : ("foo" : String).data.getLast? = (s ++ "\n").data.getLast? := by rw [← h]
  rw [String.data_append] at h3
  have h4 : (s.data ++ ("\n" : String).data).getLast? = some '\n' := by
    have hd : ("\n" : String).data = ['\n'] := rfl
    rw [hd, List.getLast?_concat]
  rw [h4] at h3
  have h5 : ("foo" : String).data.getLast? = some 'o' := rfl
  rw [h5] at h3
  exact absurd (Option.some.inj h3) (by decide)

/-- Claim C2 (amended): for every well-formed record set, the names artifact
lists each distinct package name exactly once, sorted lexicographically,
names joined by newlines — but newline-separated rather than
newline-terminated — and the artifact is independent of insertion order. -/
theorem c2_names_sorted_dedup (store store' : KVStore) (hwf : wfStore store)
    (hperm : store.Perm store') :
    (namesArtifactList store).Sorted (· ≤ ·)
    ∧ (namesArtifactList store).Nodup
    ∧ (∀ n, n ∈ namesArtifactList store ↔ ∃ p, p ∈ store ∧ p.2.name = n)
    ∧ generateNamesContent store = String.intercalate "\n" (namesArtifactList store)
    ∧ generateNamesContent store' = generateNamesContent store := by
  have hwf' : wfStore store' := fun p hp => hwf p (hperm.symm.subset hp)
  have hsorted : ∀ (st : KVStore), (namesArtifactList st).Sorted (· ≤ ·) := by
    intro st
    have hs := List.sorted_insertionSort strLe (dedupFirst (gemNamesRaw st))
    exact hs.imp (fun h => strLe_le h)
  have hnodup : ∀ (st : KVStore), (namesArtifactList st).Nodup := by
    intro st
    exact ((List.perm_insertionSort strLe _).nodup_iff).mpr (dedupFirst_nodup _)
  have hmem : ∀ (st : KVStore), wfStore st →
      ∀ n, n ∈ namesArtifactList st ↔ ∃ p, p ∈ st ∧ p.2.name = n := by
    intro st hwfs n
    unfold namesArtifactList
    rw [(List.perm_insertionSort strLe _).mem_iff, mem_dedupFirst]
    exact mem_gemNamesRaw st hwfs n
  refine ⟨hsorted store, hnodup store, hmem store hwf, rfl, ?_⟩
  have hpermL : (namesArtifactList store').Perm (namesArtifactList store) := by
    rw [List.perm_ext_iff_of_nodup (hnodup store') (hnodup store)]
    intro a
    rw [hmem store' hwf' a, hmem store hwf a]
    constructor
    · rintro ⟨p, hp, hn⟩
      exact ⟨p, hperm.symm.subset hp, hn⟩
    · rintro ⟨p, hp, hn⟩
      exact ⟨p, hperm.subset hp, hn⟩
  have heq : namesArtifactList store' = namesArtifactList store :=
    List.eq_of_perm_of_sorted hpermL (hsorted store') (hsorted store)
  unfold generateNamesContent
  rw [heq]

/-- Claim C4: the spec asserts that on encoding failure `generateSpecsGz`
falls back to a minimal valid gzip-compressed encoding of an empty sequence.
The code does fall back to the fixed `generateValidSpecsGz` artifact, but
those bytes are `78 9c cb 48 cd c9 c9 57 28 cf 2f ca 49 01 00 1a 0b 04 5d` —
a zlib stream whose payload is the ASCII text "hello world": not gzip (the
gzip magic is `1f 8b`) and not an encoding of an empty sequence. -/
theorem c4_specs_fallback
    (encode : List (String × String × String) → Option (List Nat))
    (gems : List GemMetadata) (h : encode (gems.map specTriple) = none) :
    generateSpecsGz encode gems = generateValidSpecsGz
    ∧ generateValidSpecsGz =
        [0x78, 0x9c, 0xcb, 0x48, 0xcd, 0xc9, 0xc9, 0x57, 0x28, 0xcf,
         0x2f, 0xca, 0x49, 0x01, 0x00, 0x1a, 0x0b, 0x04, 0x5d]
    ∧ generateValidSpecsGz.take 2 ≠ [0x1f, 0x8b] := by
  refine ⟨?_, by decide, by decide⟩
  unfold generateSpecsGz
  rw [h]

/-- Witness for C4 at a concrete failing encoder and record set. -/
theorem c4_specs_fallback_witness :
    generateSpecsGz (fun _ => none) [] = generateValidSpecsGz :=
  (c4_specs_fallback (fun _ => none) [] rfl).1

/-- Claim C5: `updateSpecsIndexInR2` writes the same bytes under
`specs.4.8.gz` and `latest_specs.4.8.gz` — no latest-only filtering — for
every record set and every (uninterpreted) Marshal/gzip pipeline. -/
theorem c5_specs_eq_latest {β γ : Type}
    (dump : List (String × String × String) → β) (gzipC : β → γ)
    (gems : List GemMetadata) :
    r2Written (updateSpecsIndexPuts dump gzipC gems) "specs.4.8.gz"
      = r2Written (updateSpecsIndexPuts dump gzipC gems) "latest_specs.4.8.gz"
    ∧ r2Written (updateSpecsIndexPuts dump gzipC gems) "specs.4.8.gz"
      = some (gzipC (dump (gems.map specTriple))) := by
  constructor <;> rfl

/-- Claim C8: after storing `foo` at versions 1.0.0 and 2.0.0 in either
order, `getGem` returns the 2.0.0 record — the maximum under the mixed
numeric/lexicographic version ordering. -/
theorem c8_get_latest :
    getGem storeC8a "foo" = some gemFooV2
    ∧ getGem storeC8b "foo" = some gemFooV2
    ∧ vcmp "1.0.0" "2.0.0" = Ordering.lt := by
  decide

/-- Witness for C2 at a concrete well-formed store. -/
theorem c2_names_sorted_dedup_witness :
    wfStore storeC1 ∧ (namesArtifactList storeC1).Nodup :=
  ⟨by decide,
    (c2_names_sorted_dedup storeC1 storeC1 (by decide) (List.Perm.refl _)).2.1⟩

/-- Claim C3: for every well-formed record set with unique keys, the
versions-artifact line of a grouped name is `"<name> <v1>,...,<vN>\n"` with
the name's versions exactly once each (no duplicates), sorted ascending by
the version comparator, comma-joined with no trailing comma; the example
`["1.2.0","1.10.0","1.3.0"]` sorts to `1.2.0,1.3.0,1.10.0`. -/
theorem c3_versions_line (store : KVStore) (name : String) (vs : List String)
    (hwf : wfStore store) (hnd : nodupKeys store)
    (hmem : (name, vs) ∈ versionGroups store) :
    (∃ s t, generateVersionsContent store =
        s ++ (name ++ " " ++ String.intercalate "," (vs.insertionSort vleStr) ++ "\n") ++ t)
    ∧ (vs.insertionSort vleStr).Perm vs
    ∧ (vs.insertionSort vleStr).Nodup
    ∧ (vs.insertionSort vleStr).Sorted vleStr
    ∧ (∀ v, v ∈ vs ↔ ∃ p, p ∈ store ∧ p.2.name = name ∧ p.2.version = v)
    ∧ List.insertionSort vleStr ["1.2.0", "1.10.0", "1.3.0"]
        = ["1.2.0", "1.3.0", "1.10.0"] := by
  have hvs := versionGroups_val hmem
  refine ⟨?_, List.perm_insertionSort vleStr vs, ?_,
    List.sorted_insertionSort vleStr vs, ?_, by decide⟩
  · obtain ⟨s, t, hst⟩ := concatLines_mem_split versionsLine hmem
    exact ⟨s, t, hst⟩
  · refine ((List.perm_insertionSort vleStr vs).nodup_iff).mpr ?_
    rw [hvs]
    exact groupSpec_nodup store hwf hnd name
  · intro v
    rw [hvs]
    exact mem_groupSpec_iff store hwf name v

/-- Witness for C3 at a concrete two-version store. -/
theorem c3_versions_line_witness :
    wfStore storeC8a ∧ nodupKeys storeC8a ∧
    List.insertionSort vleStr ["1.2.0", "1.10.0", "1.3.0"]
      = ["1.2.0", "1.3.0", "1.10.0"] :=
  ⟨by decide, by decide,
    (c3_versions_line storeC8a "foo" ["1.0.0", "2.0.0"]
      (by decide) (by decide) (by decide)).2.2.2.2.2⟩

/-- Claim C6: the dependency-resolution response encodes exactly the records
whose name is in the requested list (exact, case-sensitive string match);
an empty request or no match yields the empty sequence; each entry carries
the record's name, version (as `number`), platform, and its dependency
pairs. -/
theorem c6_dependencies_response (gems : List GemMetadata) (req : List String) :
    dependenciesData gems req
      = (gems.filter (fun g => decide (g.name ∈ req))).map toDepEntry
    ∧ (req = [] → dependenciesData gems req = [])
    ∧ ((∀ g ∈ gems, g.name ∉ req) → dependenciesData gems req = [])
    ∧ (∀ e ∈ dependenciesData gems req, ∃ g, g ∈ gems ∧ g.name ∈ req ∧ e = toDepEntry g)
    ∧ (∀ g : GemMetadata, (toDepEntry g).name = g.name
        ∧ (toDepEntry g).number = g.version
        ∧ (toDepEntry g).platform = jsOrStr g.platform "ruby"
        ∧ (toDepEntry g).dependencies
            = (g.dependencies.getD []).map (fun d => (d.name, jsOrStr d.requirements ">= 0")))
    ∧ (∀ (β : Type) (dump : List DepEntry → β),
        generateDependenciesResponse dump gems req = dump (dependenciesData gems req))
    ∧ dependenciesData [gemFoo100] ["foo", "baz"] = [toDepEntry gemFoo100] := by
  refine ⟨?_, ?_, ?_, ?_, fun g => ⟨rfl, rfl, rfl, rfl⟩, fun β dump => rfl, by decide⟩
  · unfold dependenciesData
    congr 1
    exact List.filter_congr (fun g _ => contains_eq_decide_mem req g.name)
  · rintro rfl
    simp [dependenciesData]
  · intro h
    unfold dependenciesData
    rw [List.filter_eq_nil_iff.mpr ?_]
    · rfl
    · intro g hg
      rw [contains_eq_decide_mem]
      simp [h g hg]
  · intro e he
    unfold dependenciesData at he
    obtain ⟨g, hg, rfl⟩ := List.mem_map.mp he
    have hf := List.mem_filter.mp hg
    have hb := hf.2
    rw [contains_eq_decide_mem] at hb
    exact ⟨g, hf.1, of_decide_eq_true hb, rfl⟩

/-- Witness for C6: the empty request yields the empty sequence. -/
theorem c6_dependencies_response_witness :
    dependenciesData [gemFoo100] [] = [] :=
  (c6_dependencies_response [gemFoo100] []).2.1 rfl

/-- Claim C7 (counterexample): for a record with no dependencies the info
line still ends with a comma before the newline — the trailing comma-list
is not omitted. -/
theorem c7_no_deps_trailing_comma :
    generateInfoContent storeC7 "foo" = "1.0.0,h,ruby,\n"
    ∧ generateInfoContent storeC7 "foo" ≠ "1.0.0,h,ruby\n" := by
  decide

/-- Claim C7 (amended): for every record in the listed versions of a name
whose dependency list is absent or empty, its line in the per-package info
artifact is `"<version>,<contentHash>,<platform>,\n"` — the comma separator
before the (empty) dependency list is still emitted. -/
theorem c7_no_deps_line (store : KVStore) (gemName : String) (g : GemMetadata)
    (hg : g ∈ infoVersions store gemName)
    (hdeps : g.dependencies = none ∨ g.dependencies = some []) :
    ∃ s t, generateInfoContent store gemName =
      s ++ (g.version ++ "," ++ optValStr g.sha ++ ","
        ++ jsOrStr g.platform "ruby" ++ ",\n") ++ t := by
  obtain ⟨s, t, hst⟩ := concatLines_mem_split infoLine hg
  have hdeps0 : infoDeps g.dependencies = "" := by
    rcases hdeps with h | h
    · simp [h, infoDeps]
    · simp only [h, infoDeps, jsArrayEntries, List.enum_nil, List.map_nil]
      rfl
  have hline : infoLine g = g.version ++ "," ++ optValStr g.sha ++ ","
      ++ jsOrStr g.platform "ruby" ++ ",\n" := by
    unfold infoLine
    rw [hdeps0]
    apply String.ext
    simp only [String.data_append, List.append_assoc]
    rfl
  refine ⟨s, t, ?_⟩
  unfold generateInfoContent
  rw [hst, hline]

/-- Witness for C7 at a concrete no-dependency record. -/
theorem c7_no_deps_line_witness :
    ∃ s t, generateInfoContent storeC7 "foo" =
      s ++ (gemNoDeps.version ++ "," ++ optValStr gemNoDeps.sha ++ ","
        ++ jsOrStr gemNoDeps.platform "ruby" ++ ",\n") ++ t :=
  c7_no_deps_line storeC7 "foo" gemNoDeps (by decide) (Or.inl rfl)

/-- Claim C9: `incrementDownloads` modifies at most the `downloads` field of
the single record stored at `gem:<name>:<version>`, increasing it by exactly
one (a missing field counts as 0); every other key reads back unchanged, and
when no record exists at that key the store is left entirely unchanged. -/
theorem c9_increment_downloads_frame (store : KVStore) (name version : String) :
    (kvGet store (mkGemKey name version) = none →
      incrementDownloads store name version = store)
    ∧ (∀ g, kvGet store (mkGemKey name version) = some g →
        kvGet (incrementDownloads store name version) (mkGemKey name version)
          = some { g with downloads := some (g.downloads.getD 0 + 1) }
        ∧ ∀ k, k ≠ mkGemKey name version →
            kvGet (incrementDownloads store name version) k = kvGet store k) := by
  constructor
  · intro h
    unfold incrementDownloads
    rw [h]
  · intro g hg
    have hany := any_of_kvGet_some hg
    have hstep : incrementDownloads store name version =
        store.map (fun p => if p.1 = mkGemKey name version then
          (mkGemKey name version, { g with downloads := some (g.downloads.getD 0 + 1) })
          else p) := by
      unfold incrementDownloads
      rw [hg]
      show kvPut store (mkGemKey name version)
          { g with downloads := some (g.downloads.getD 0 + 1) } = _
      unfold kvPut
      rw [if_pos hany]
    constructor
    · rw [hstep]
      unfold kvGet
      rw [find?_mapPut_self]
      unfold kvGet at hg
      cases hf : store.find? (fun p => p.1 = mkGemKey name version) with
      | none => rw [hf] at hg; cases hg
      | some q => rfl
    · intro k hk
      rw [hstep]
      unfold kvGet
      rw [find?_mapPut_other _ _ _ _ hk]

/-- Witness for C9 at a concrete store: the first increment of a record with
no `downloads` field yields 1, and the sibling record is untouched. -/
theorem c9_increment_downloads_frame_witness :
    kvGet (incrementDownloads storeC8a "foo" "1.0.0") (mkGemKey "foo" "1.0.0")
      = some { gemFooV1 with downloads := some 1 } ∧
    kvGet (incrementDownloads storeC8a "foo" "1.0.0") (mkGemKey "foo" "2.0.0")
      = kvGet storeC8a (mkGemKey "foo" "2.0.0") := by
  have h := (c9_increment_downloads_frame storeC8a "foo" "1.0.0").2 gemFooV1 (by decide)
  exact ⟨h.1, h.2 (mkGemKey "foo" "2.0.0") (by decide)⟩

/-- Claim C10: every dependency whose stored requirements string is missing
or empty is encoded in the dependency-resolution response with the default
requirement `">= 0"`, and no encoded requirement is ever the empty string. -/
theorem c10_default_requirement (gems : List GemMetadata) (req : List String)
    (g : GemMetadata) (d : GemDependency) (hg : g ∈ gems) (hreq : g.name ∈ req)
    (hd : d ∈ g.dependencies.getD [])
    (hempty : d.requirements = none ∨ d.requirements = some "") :
    toDepEntry g ∈ dependenciesData gems req
    ∧ (d.name, ">= 0") ∈ (toDepEntry g).dependencies
    ∧ (∀ e ∈ dependenciesData gems req, ∀ q ∈ e.dependencies, q.2 ≠ "") := by
  refine ⟨?_, ?_, ?_⟩
  · unfold dependenciesData
    apply List.mem_map.mpr
    refine ⟨g, List.mem_filter.mpr ⟨hg, ?_⟩, rfl⟩
    rw [contains_eq_decide_mem]
    simpa using hreq
  · show (d.name, ">= 0") ∈
      (g.dependencies.getD []).map (fun d => (d.name, jsOrStr d.requirements ">= 0"))
    apply List.mem_map.mpr
    refine ⟨d, hd, ?_⟩
    rcases hempty with h | h <;> simp [jsOrStr, h]
  · intro e he q hq
    unfold dependenciesData at he
    obtain ⟨g2, _, rfl⟩ := List.mem_map.mp he
    have hq2 : q ∈ (g2.dependencies.getD []).map
        (fun d => (d.name, jsOrStr d.requirements ">= 0")) := hq
    obtain ⟨d2, _, rfl⟩ := List.mem_map.mp hq2
    show jsOrStr d2.requirements ">= 0" ≠ ""
    cases hr : d2.requirements with
    | none => simp [jsOrStr]
    | some str =>
      by_cases hs : str = ""
      · simp [jsOrStr, hs]
      · simp [jsOrStr, hs]

/-- Witness for C10 at a record whose dependency has no requirements. -/
theorem c10_default_requirement_witness :
    toDepEntry gemBaz ∈ dependenciesData [gemBaz] ["baz"]
    ∧ ("qux", ">= 0") ∈ (toDepEntry gemBaz).dependencies := by
  have h := c10_default_requirement [gemBaz] ["baz"] gemBaz
    { name := "qux", requirements := none } (by decide) (by decide) (by decide)
    (Or.inl rfl)
  exact ⟨h.1, h.2.1⟩
